import Mathlib

/-!
Verification of the knapstack branch-and-bound solver
(split-header `include/knapstack/branch_and_bound.hpp` and bundled
single-header `single-header/knapstack_solver.hpp`; the two are textually
identical for the 0/1 variant, and the single header additionally contains
the unbounded variant).

Modelling conventions:
* the generic numeric parameters `Value` and `Cost` are embedded as `ℤ`
  (the reference instantiation is a built-in integer type);
* C++ `double` arithmetic is embedded as exact arithmetic in `ℚ`;
  `std::numeric_limits<double>::max()` is the largest finite double, whose
  exact value is `(2^53 - 1) * 2^971`;
* C++ integer division truncates towards zero, which is `Int.tdiv`;
* undefined behaviour (out-of-bounds vector access, integer division by
  zero, and the never-terminating backtrack produced by a zero-count stack
  entry) is embedded as `Option.none`;
* `ranges::sort` is an unspecified comparison sort; it is embedded as
  insertion sort, which is deterministic and stable and agrees with the
  behaviour of the usual library sorts on the small ranges appearing in the
  concrete evaluations below.  All general theorems use only that the
  result is a sorted permutation of its input.
-/

namespace Knapstack

/-- Item of an instance: a value/cost pair
(`Knapstack::Instance::Item`, single header lines 49-67). -/
structure Item where
  value : ℤ
  cost : ℤ
deriving DecidableEq, Repr

/-- Exact value of `std::numeric_limits<double>::max()`, the largest
finite IEEE-754 double. -/
def dblMax : ℚ := (2 ^ 53 - 1) * 2 ^ 971

/-- Model of the C++ `double` type for stating claims that distinguish
finite doubles from the infinities: a finite value or positive infinity. -/
inductive EDouble where
  | fin (q : ℚ)
  | posInf
deriving DecidableEq, Repr

/-- Embedding of `Item::getRatio` (single header lines 62-65) as a rational:
`if(cost == 0) return std::numeric_limits<double>::max(); return value/cost;`.
Note the zero-cost branch returns the largest finite double, not infinity. -/
def Item.getRatio (it : Item) : ℚ :=
  if it.cost = 0 then dblMax else (it.value : ℚ) / (it.cost : ℚ)

/-- Embedding of `Item::getRatio` into the `double` model `EDouble`: both
branches of the source produce finite doubles (`numeric_limits<double>::max()`
is finite, and the quotient of two converted integers is finite). -/
def Item.getRatioE (it : Item) : EDouble :=
  if it.cost = 0 then EDouble.fin dblMax
  else EDouble.fin ((it.value : ℚ) / (it.cost : ℚ))

/-- Instance: a budget plus an ordered item list
(`Knapstack::Instance`, single header lines 46-83). -/
structure Instance where
  budget : ℤ
  items : List Item
deriving DecidableEq, Repr

/-- Number of items (`Instance::itemCount`). -/
def Instance.itemCount (inst : Instance) : ℕ := inst.items.length

/-- Total value of a 0/1 solution: `Knapstack::Solution::getValue`
(single header lines 108-113) sums `instance[i].value` over all indices `i`
with `_taken[i]`; `_taken` has one entry per item. -/
def getValue01 : List Item → List Bool → ℤ
  | _, [] => 0
  | [], _ => 0
  | it :: its, b :: bs => (if b then it.value else 0) + getValue01 its bs

/-- Total cost of a 0/1 solution (`Knapstack::Solution::getCost`,
single header lines 114-119). -/
def getCost01 : List Item → List Bool → ℤ
  | _, [] => 0
  | [], _ => 0
  | it :: its, b :: bs => (if b then it.cost else 0) + getCost01 its bs

/-- Total value of an unbounded solution: `UnboundedKnapstack::Solution::getValue`
(single header lines 248-253) sums `_nb_taken[i] * instance[i].value`. -/
def getValueU : List Item → List ℤ → ℤ
  | _, [] => 0
  | [], _ => 0
  | it :: its, k :: ks => k * it.value + getValueU its ks

/-- Total cost of an unbounded solution (`UnboundedKnapstack::Solution::getCost`,
single header lines 254-259). -/
def getCostU : List Item → List ℤ → ℤ
  | _, [] => 0
  | [], _ => 0
  | it :: its, k :: ks => k * it.cost + getCostU its ks

/-- Loop body of `Knapstack::BranchAndBound::computeUpperBound`
(single header lines 133-142), running over the item suffix that starts at
the current depth.  The accumulators stay integral until the return
statements convert them to `double` (here: `ℚ`). -/
def ubLoop01 : List Item → ℤ → ℤ → ℚ
  | [], bound_value, _ => (bound_value : ℚ)
  | it :: rest, bound_value, bound_budget_left =>
    if bound_budget_left ≤ it.cost then
      (bound_value : ℚ) + (bound_budget_left : ℚ) * it.getRatio
    else
      ubLoop01 rest (bound_value + it.value) (bound_budget_left - it.cost)

/-- Embedding of `Knapstack::BranchAndBound::computeUpperBound`: the loop
starts at index `depth` of `sorted_items`. -/
def computeUpperBound (sorted_items : List Item) (depth : ℕ)
    (bound_value bound_budget_left : ℤ) : ℚ :=
  ubLoop01 (sorted_items.drop depth) bound_value bound_budget_left

/-- Loop body of `UnboundedKnapstack::BranchAndBound::computeUpperBound`
(single header lines 273-283).  `nb_take = bound_budget_left / item.cost`
is C++ integer division, which is undefined when `item.cost == 0` (reached
whenever `bound_budget_left > item.cost = 0`); that case is `none`. -/
def ubLoopU : List Item → ℤ → ℤ → Option ℚ
  | [], bound_value, _ => some (bound_value : ℚ)
  | it :: rest, bound_value, bound_budget_left =>
    if bound_budget_left ≤ it.cost then
      some ((bound_value : ℚ) + (bound_budget_left : ℚ) * it.getRatio)
    else if it.cost = 0 then
      none
    else
      ubLoopU rest (bound_value + (Int.tdiv bound_budget_left it.cost) * it.value)
        (bound_budget_left - (Int.tdiv bound_budget_left it.cost) * it.cost)

/-- Embedding of `UnboundedKnapstack::BranchAndBound::computeUpperBound`. -/
def computeUpperBoundU (sorted_items : List Item) (depth : ℕ)
    (bound_value bound_budget_left : ℤ) : Option ℚ :=
  ubLoopU (sorted_items.drop depth) bound_value bound_budget_left

/-- Incumbent of the 0/1 search: `best_value` and `best_stack`
(single header lines 148-150); the stack holds committed depths, top first. -/
structure Best01 where
  bestValue : ℤ
  bestStack : List ℕ
deriving DecidableEq, Repr

/-- Descend/backtrack engine of `Knapstack::BranchAndBound::iterative_bnb`
(single header lines 144-173), written as the equivalent structural
recursion on the item suffix from the current depth.  Reading of the source
control flow: scanning position `depth`,
* an item that does not fit is skipped (`continue`, line 159);
* if the upper bound from `depth` cannot beat the incumbent, the whole
  forward scan is abandoned (`goto backtrack`, lines 160-161), the most
  recent stack entry is popped and the scan resumes after it — in the
  recursion this is returning `best` to the enclosing committed frame;
* otherwise the item is committed (`begin:` block, lines 162-165) and the
  scan continues at `depth+1`; once that subtree is exhausted the backtrack
  step (lines 153-157) pops the entry and rescans from `depth+1` with the
  item removed, which is the second recursive call;
* when the scan runs off the end of the list the incumbent is updated
  exactly when `value > best_value` (lines 167-170), with the current stack
  snapshot. -/
def explore01 : List Item → ℕ → ℤ → ℤ → List ℕ → Best01 → Best01
  | [], _, value, _, stack, best =>
    if value ≤ best.bestValue then best else ⟨value, stack⟩
  | it :: rest, depth, value, budget_left, stack, best =>
    if budget_left < it.cost then
      explore01 rest (depth + 1) value budget_left stack best
    else if ubLoop01 (it :: rest) value budget_left ≤ (best.bestValue : ℚ) then
      best
    else
      explore01 rest (depth + 1) value budget_left stack
        (explore01 rest (depth + 1) (value + it.value) (budget_left - it.cost)
          (depth :: stack) best)

/-- Embedding of `Knapstack::BranchAndBound::iterative_bnb`
(single header lines 144-173).  The function starts with `goto begin` at
`depth = 0`, which jumps into the middle of the scan loop and commits
`sorted_items[0]` unconditionally — without the loop condition
`depth < nb_items`, so on an empty item vector it reads `sorted_items[0]`
out of bounds (undefined behaviour, embedded as `none`).  After the first
descent finishes, backtracking pops entry 0 and rescans from depth 1 with
the item removed; the search ends when the stack empties. -/
def iterative_bnb01 : List Item → ℤ → Option (List ℕ)
  | [], _ => none
  | it0 :: rest, budget_left =>
    some (explore01 rest 1 0 budget_left []
      (explore01 rest 1 it0.value (budget_left - it0.cost) [0] ⟨0, []⟩)).bestStack

/-- Incumbent of the unbounded search; stack entries are
`(depth, nb_take)` pairs (single header lines 290-291). -/
structure BestU where
  bestValue : ℤ
  bestStack : List (ℕ × ℤ)
deriving DecidableEq, Repr

/-- Count-backtracking loop of the unbounded search: after position `depth`
is committed with `nb_take` copies (single header lines 304-308), the
backtrack step (lines 295-299) removes one copy at a time, rescanning from
`depth+1` after each removal, and pops the stack entry when the count hits
zero.  Equivalently, for `j = nb_take, nb_take - 1, ..., 1, 0` the scan
continues at `depth+1` with `j` copies committed (stack entry
`(depth, j)` while `j ≥ 1`, entry popped at `j = 0`).  The continuation
`f value budget_left stack best` is the scan from `depth+1`. -/
def countLoopU (f : ℤ → ℤ → List (ℕ × ℤ) → BestU → Option BestU) (it : Item)
    (depth : ℕ) (value budget_left : ℤ) (stack : List (ℕ × ℤ)) :
    ℕ → BestU → Option BestU
  | 0, best => f value budget_left stack best
  | j + 1, best =>
    match f (value + ((j : ℤ) + 1) * it.value)
        (budget_left - ((j : ℤ) + 1) * it.cost)
        ((depth, (j : ℤ) + 1) :: stack) best with
    | none => none
    | some best1 => countLoopU f it depth value budget_left stack j best1

/-- Descend/backtrack engine of
`UnboundedKnapstack::BranchAndBound::iterative_bnb`
(single header lines 285-316), as the structural recursion analogous to
`explore01`.  The commit step computes
`nb_take = budget_left / sorted_items[depth].cost` (line 305): C++ integer
division, undefined for a zero-cost item (embedded as `none`; the guard at
line 301 does not exclude this case, since `budget_left < 0` is false).
A committed entry with `nb_take ≤ 0` (reachable only through negative
costs) makes the backtrack decrement `--stack.top().second == 0` miss zero
forever, so the loop never terminates; that case is also `none`. -/
def exploreU : List Item → ℕ → ℤ → ℤ → List (ℕ × ℤ) → BestU → Option BestU
  | [], _, value, _, stack, best =>
    some (if value ≤ best.bestValue then best else ⟨value, stack⟩)
  | it :: rest, depth, value, budget_left, stack, best =>
    if budget_left < it.cost then
      exploreU rest (depth + 1) value budget_left stack best
    else
      match ubLoopU (it :: rest) value budget_left with
      | none => none
      | some ub =>
        if ub ≤ (best.bestValue : ℚ) then
          some best
        else if it.cost = 0 then
          none
        else if Int.tdiv budget_left it.cost ≤ 0 then
          none
        else
          countLoopU (fun v b s bst => exploreU rest (depth + 1) v b s bst) it
            depth value budget_left stack
            (Int.tdiv budget_left it.cost).toNat best

/-- Embedding of `UnboundedKnapstack::BranchAndBound::iterative_bnb`.
As in the 0/1 variant, `goto begin` commits `sorted_items[0]`
unconditionally: an empty vector gives an out-of-bounds read (`none`), a
zero-cost first item gives `nb_take = budget_left / 0` (`none`), and when
`budget_left < cost` the pushed entry has count `nb_take ≤ 0`, so the
backtrack decrement `--stack.top().second == 0` never succeeds and the
search never terminates (also `none`).  Otherwise the root committal of
`nb_take` copies followed by the count-backtracking down to zero copies is
exactly `countLoopU` applied to the scan from depth 1. -/
def iterative_bnbU : List Item → ℤ → Option (List (ℕ × ℤ))
  | [], _ => none
  | it0 :: rest, budget_left =>
    if it0.cost = 0 then none
    else if Int.tdiv budget_left it0.cost ≤ 0 then none
    else
      match countLoopU (fun v b s bst => exploreU rest 1 v b s bst) it0 0 0
          budget_left [] (Int.tdiv budget_left it0.cost).toNat ⟨0, []⟩ with
      | none => none
      | some best => some best.bestStack

/-- Comparator passed to `ranges::sort` (single header line 189):
`p1.first < p2.first` with `Item::operator<` comparing by strictly greater
ratio.  A sequence sorted by this strict weak order is exactly one sorted
by the non-strict descending-ratio relation below. -/
def ratioGE (p q : Item × ℕ) : Prop := q.1.getRatio ≤ p.1.getRatio

instance : DecidableRel ratioGE := fun p q =>
  inferInstanceAs (Decidable (q.1.getRatio ≤ p.1.getRatio))

/-- Preprocessing step of both `solve` functions (single header lines
178-189 and 321-332): pair every item with its original index
(`std::iota`), remove pairs whose item cost exceeds the budget
(`ranges::remove_if` keeps the relative order of survivors), and sort the
surviving pairs by descending ratio. -/
def sortedPairs (inst : Instance) : List (Item × ℕ) :=
  List.insertionSort ratioGE
    ((inst.items.zip (List.range inst.items.length)).filter
      (fun p => decide (p.1.cost ≤ inst.budget)))

/-- Embedding of `Knapstack::BranchAndBound::solve` (single header lines
177-199): preprocess, run the search, then translate each stack entry
through `permuted_id` and set the corresponding original index in a
solution initialised to all-false (`Solution::add`). -/
def solve01 (inst : Instance) : Option (List Bool) :=
  let sp := sortedPairs inst
  let sorted_items := sp.map Prod.fst
  let permuted_id := sp.map Prod.snd
  match iterative_bnb01 sorted_items inst.budget with
  | none => none
  | some best_stack =>
    best_stack.foldlM
      (fun taken d => (permuted_id[d]?).map (fun i => taken.set i true))
      (List.replicate inst.items.length false)

/-- Embedding of `UnboundedKnapstack::BranchAndBound::solve` (single
header lines 320-344): identical preprocessing, unbounded search, then
`solution.set(permuted_id[p.first], p.second)` for each stack entry. -/
def solveU (inst : Instance) : Option (List ℤ) :=
  let sp := sortedPairs inst
  let sorted_items := sp.map Prod.fst
  let permuted_id := sp.map Prod.snd
  match iterative_bnbU sorted_items inst.budget with
  | none => none
  | some best_stack =>
    best_stack.foldlM
      (fun counts pr => (permuted_id[pr.1]?).map (fun i => counts.set i pr.2))
      (List.replicate inst.items.length 0)

/-- Total value of a plain item list. -/
def listValue (l : List Item) : ℤ := (l.map Item.value).sum

/-- Total cost of a plain item list. -/
def listCost (l : List Item) : ℤ := (l.map Item.cost).sum

/-- Modelled from the spec (section 8, Optimality): the brute-force 0/1
optimum, the maximum of `listValue` over all sublists of the item list
whose total cost does not exceed the budget; the empty selection
contributes the base value 0. -/
def maxFeasibleValue01 (items : List Item) (budget : ℤ) : ℤ :=
  ((items.sublists.filter (fun s => decide (listCost s ≤ budget))).map
    listValue).foldl max 0

end Knapstack

namespace Knapstack

/-- Descending-ratio sortedness of an item list, the order produced by the
preprocessing sort (`Item::operator<` compares by strictly greater ratio). -/
def SortedByRatio (l : List Item) : Prop :=
  List.Sorted (fun a b : Item => b.getRatio ≤ a.getRatio) l

/-- Instance witnessing that the 0/1 solver is not optimal: budget 0 with
the zero-cost items (0,0) and (5,0). -/
def instC1 : Instance := ⟨0, [⟨0, 0⟩, ⟨5, 0⟩]⟩

/-- C1: the claim that `solve` always returns a selection of maximal total
value fails.  On budget 0 with zero-cost items (0,0), (5,0) — non-negative
budget, values and costs — the 0/1 solver returns the empty selection of
value 0, although taking item 1 is feasible (cost 0 ≤ 0) with value 5: the
brute-force optimum.  The root cause is the upper bound
`0 + 0 * getRatio = 0` at remaining budget 0, which prunes the subtree
containing item 1 even though that subtree still contains value 5. -/
theorem c1_solve_not_optimal :
    solve01 instC1 = some [false, false] ∧
    getValue01 instC1.items [false, false] = 0 ∧
    maxFeasibleValue01 instC1.items instC1.budget = 5 := by
  refine ⟨?_, by norm_num [instC1, getValue01], ?_⟩
  · norm_num [instC1, solve01, sortedPairs, iterative_bnb01, explore01, ubLoop01,
      List.insertionSort, List.orderedInsert, List.filter, List.zip, List.zipWith,
      List.range, ratioGE, Item.getRatio, dblMax, List.replicate]
  · norm_num [instC1, maxFeasibleValue01, List.sublists, listValue, listCost, List.filter]

/-- C3: the claim that `solve` is total on every Instance with non-negative
budget, values and costs — in particular that no division by zero occurs
and that zero-cost items are handled — fails.  In the unbounded variant,
item (1,0) with budget 1 reaches `nb_take = budget_left / cost[0]` with
`cost[0] == 0`: integer division by zero, undefined behaviour (`none`). -/
theorem c3_not_total_div_by_zero : solveU ⟨1, [⟨1, 0⟩]⟩ = none := by
  norm_num [solveU, sortedPairs, iterative_bnbU, List.insertionSort, List.orderedInsert,
    List.filter, List.zip, List.zipWith, List.range, ratioGE]

/-- C5: the claim that the degenerate inputs return the empty solution with
value 0 and cost 0 fails.  On the empty item list (the claim's first case)
both variants run `goto begin` with `nb_items == 0` and read
`sorted_items[0]` out of bounds: undefined behaviour (`none`), not the
empty Solution. -/
theorem c5_degenerate_inputs_crash :
    solve01 ⟨0, []⟩ = none ∧ solveU ⟨0, []⟩ = none := by
  constructor
  · norm_num [solve01, sortedPairs, iterative_bnb01, List.insertionSort, List.filter,
      List.zip, List.zipWith, List.range]
  · norm_num [solveU, sortedPairs, iterative_bnbU, List.insertionSort, List.filter,
      List.zip, List.zipWith, List.range]

/-- Item list of the monotonicity counterexample for C7.  The two copies of
(21,18) are identical items, so every descending-ratio sort of this list
produces the same item sequence: the counterexample does not depend on how
the unspecified `ranges::sort` breaks ties. -/
def itemsC7 : List Item := [⟨21, 18⟩, ⟨2, 6⟩, ⟨21, 18⟩, ⟨9, 8⟩]

/-- C7: the claim that the optimal value returned by `solve` is monotone in
the budget fails for the unbounded variant.  With items
(21,18), (2,6), (21,18), (9,8) — all values and costs positive — the
solver returns total value 54 at budget 49 but only 53 at budget 50: the
inadmissible unbounded upper bound (see C4) prunes the branch holding the
budget-50 optimum 57 = 21 + 4*9, and the incumbent kept is worse than the
value 54 found at budget 49. -/
theorem c7_not_monotone :
    (solveU ⟨49, itemsC7⟩).map (getValueU itemsC7) = some 54 ∧
    (solveU ⟨50, itemsC7⟩).map (getValueU itemsC7) = some 53 := by
  constructor
  · norm_num [itemsC7, solveU, sortedPairs, iterative_bnbU, exploreU, countLoopU,
      ubLoopU, List.insertionSort, List.orderedInsert, List.filter, List.zip,
      List.zipWith, List.range, ratioGE, Item.getRatio, dblMax, Int.tdiv,
      getValueU, List.replicate, List.set]
  · norm_num [itemsC7, solveU, sortedPairs, iterative_bnbU, exploreU, countLoopU,
      ubLoopU, List.insertionSort, List.orderedInsert, List.filter, List.zip,
      List.zipWith, List.range, ratioGE, Item.getRatio, dblMax, Int.tdiv,
      getValueU, List.replicate, List.set]

/-- C10: the claim that every container access of `iterative_bnb` is in
bounds — including on the empty working list — fails.  With budget 0 and
the single item (1,1) the feasibility filter removes the item, the working
list is empty, and `goto begin` still executes
`value += sorted_items[0].value` (the jump bypasses the loop condition
`depth < nb_items`): an out-of-bounds read of an empty vector (`none`). -/
theorem c10_out_of_bounds_access : solve01 ⟨0, [⟨1, 1⟩]⟩ = none := by
  norm_num [solve01, sortedPairs, iterative_bnb01, List.insertionSort, List.filter,
    List.zip, List.zipWith, List.range]

/-- C9, counterexample: the claim that `getRatio` returns positive infinity
when the cost is 0 is false: the source returns
`std::numeric_limits<double>::max()`, the largest finite double, whose
exact value is `dblMax = (2^53 - 1) * 2^971` — not infinity. -/
theorem c9_ratio_not_infinity :
    Item.getRatioE ⟨1, 0⟩ = EDouble.fin dblMax ∧
    Item.getRatioE ⟨1, 0⟩ ≠ EDouble.posInf := by
  constructor
  · simp [Item.getRatioE]
  · simp [Item.getRatioE]

/-- C9, amended: `getRatio` returns the largest finite double
`numeric_limits<double>::max()` (exactly `(2^53-1) * 2^971`) when the
item's cost equals 0, and otherwise returns value divided by cost as a
(here exactly modelled) floating-point quantity. -/
theorem c9_amended_ratio_max_double (v c : ℤ) :
    (c = 0 → (Item.mk v c).getRatio = dblMax) ∧
    (c ≠ 0 → (Item.mk v c).getRatio = (v : ℚ) / (c : ℚ)) := by
  constructor
  · intro h
    simp [Item.getRatio, h]
  · intro h
    simp [Item.getRatio, h]

/-- Witness for the amended C9 theorem at the concrete items (7,0) and
(9,2). -/
theorem c9_amended_witness :
    ((0 : ℤ) = 0 → (Item.mk 7 0).getRatio = dblMax) ∧
    ((2 : ℤ) ≠ 0 → (Item.mk 9 2).getRatio = (9 : ℚ) / (2 : ℚ)) :=
  ⟨(c9_amended_ratio_max_double 7 0).1, (c9_amended_ratio_max_double 9 2).2⟩

end Knapstack

namespace Knapstack

/-- C4, counterexample: the upper bound is not admissible in either
variant.
0/1 variant: on the sorted working list [(5,0)] at depth 0 with
accumulated value 0 and remaining budget 0 (the initial partial state of a
budget-0 instance), the bound is `0 + 0 * getRatio = 0`, yet taking the
zero-cost item 0 is a feasible integral completion of value 5.
Unbounded variant: on the sorted working list [(8,7),(3,3)] — strictly
positive costs — at depth 0 with accumulated value 0 and remaining budget
12, the bound greedily takes one copy of each item and discards the final
budget remainder 2, returning 11, yet 4 copies of (3,3) form a feasible
integral completion of value 12. -/
theorem c4_upper_bound_not_admissible :
    (SortedByRatio [⟨5, 0⟩] ∧ [Item.mk 5 0].Sublist (([⟨5, 0⟩] : List Item).drop 0) ∧
      listCost [⟨5, 0⟩] ≤ 0 ∧
      computeUpperBound [⟨5, 0⟩] 0 0 0 < ((0 : ℤ) : ℚ) + (listValue [⟨5, 0⟩] : ℚ)) ∧
    (SortedByRatio [⟨8, 7⟩, ⟨3, 3⟩] ∧
      getCostU [⟨8, 7⟩, ⟨3, 3⟩] [0, 4] ≤ 12 ∧
      computeUpperBoundU [⟨8, 7⟩, ⟨3, 3⟩] 0 0 12 = some 11 ∧
      (11 : ℚ) < ((0 : ℤ) : ℚ) + (getValueU [⟨8, 7⟩, ⟨3, 3⟩] [0, 4] : ℚ)) := by
  refine ⟨⟨?_, ?_, ?_, ?_⟩, ⟨?_, ?_, ?_, ?_⟩⟩
  · simp [SortedByRatio]
  · simp
  · norm_num [listCost]
  · norm_num [computeUpperBound, ubLoop01, listValue, Item.getRatio, dblMax]
  · norm_num [SortedByRatio, List.Sorted, Item.getRatio]
  · norm_num [getCostU]
  · norm_num [computeUpperBoundU, ubLoopU, Item.getRatio, Int.tdiv]
  · norm_num [getValueU]

end Knapstack
namespace Knapstack

/-- Ratio of an item with non-negative value and positive cost is
non-negative. -/
theorem Item.getRatio_nonneg {it : Item} (hv : 0 ≤ it.value) (hc : 0 < it.cost) :
    0 ≤ it.getRatio := by
  rw [Item.getRatio, if_neg (by omega : ¬ it.cost = 0)]
  positivity

/-- Value of an item with nonzero cost, recovered from its ratio. -/
theorem Item.value_eq_cost_mul_ratio {it : Item} (hc : it.cost ≠ 0) :
    (it.value : ℚ) = (it.cost : ℚ) * it.getRatio := by
  rw [Item.getRatio, if_neg hc]
  rw [mul_div_cancel₀]
  exact_mod_cast hc

/-- Cons unfolding for `listValue`. -/
theorem listValue_cons (it : Item) (l : List Item) :
    listValue (it :: l) = it.value + listValue l := by
  simp [listValue]

/-- Cons unfolding for `listCost`. -/
theorem listCost_cons (it : Item) (l : List Item) :
    listCost (it :: l) = it.cost + listCost l := by
  simp [listCost]

/-- Shifting the accumulated value commutes with the 0/1 bound loop. -/
theorem ubLoop01_add_left (items : List Item) (bv x bbl : ℤ) :
    ubLoop01 items (bv + x) bbl = ubLoop01 items bv bbl + (x : ℚ) := by
  induction items generalizing bv bbl with
  | nil => simp [ubLoop01]
  | cons it rest ih =>
    by_cases h : bbl ≤ it.cost
    · simp only [ubLoop01, if_pos h]
      push_cast
      ring
    · simp only [ubLoop01, if_neg h]
      rw [show bv + x + it.value = bv + it.value + x by ring, ih]

/-- Sum of values of items whose ratios are all at most `R` and whose
costs are positive is at most `R` times the sum of their costs. -/
theorem listValue_le_ratio_mul_cost {T : List Item} {R : ℚ}
    (hc : ∀ it ∈ T, 0 < it.cost) (hr : ∀ it ∈ T, it.getRatio ≤ R) :
    (listValue T : ℚ) ≤ R * (listCost T : ℚ) := by
  induction T with
  | nil => simp [listValue, listCost]
  | cons it rest ih =>
    have hcit : 0 < it.cost := hc it (by simp)
    have hrit : it.getRatio ≤ R := hr it (by simp)
    have h1 : (it.value : ℚ) ≤ R * (it.cost : ℚ) := by
      rw [Item.value_eq_cost_mul_ratio (by omega : it.cost ≠ 0), mul_comm]
      exact mul_le_mul_of_nonneg_right hrit (by exact_mod_cast hcit.le)
    have h2 := ih (fun x hx => hc x (by simp [hx])) (fun x hx => hr x (by simp [hx]))
    rw [listValue_cons, listCost_cons]
    push_cast
    rw [mul_add]
    exact add_le_add h1 h2

/-- Cap lemma: with positive costs, non-negative values and all ratios at
most `R ≥ 0`, the 0/1 bound from budget `bbl ≥ 0` is at most
`bv + bbl * R`. -/
theorem ubLoop01_le_linear (items : List Item) (bv bbl : ℤ) (R : ℚ)
    (hc : ∀ it ∈ items, 0 < it.cost) (hr : ∀ it ∈ items, it.getRatio ≤ R)
    (hR : 0 ≤ R) (hbl : 0 ≤ bbl) :
    ubLoop01 items bv bbl ≤ (bv : ℚ) + (bbl : ℚ) * R := by
  induction items generalizing bv bbl with
  | nil =>
    simp only [ubLoop01]
    have : 0 ≤ (bbl : ℚ) * R := mul_nonneg (by exact_mod_cast hbl) hR
    linarith
  | cons it rest ih =>
    by_cases h : bbl ≤ it.cost
    · simp only [ubLoop01, if_pos h]
      have : (bbl : ℚ) * it.getRatio ≤ (bbl : ℚ) * R :=
        mul_le_mul_of_nonneg_left (hr it (by simp)) (by exact_mod_cast hbl)
      linarith
    · simp only [ubLoop01, if_neg h]
      push_neg at h
      have hcit : 0 < it.cost := hc it (by simp)
      have h2 := ih (bv + it.value) (bbl - it.cost)
        (fun x hx => hc x (by simp [hx])) (fun x hx => hr x (by simp [hx]))
        (by omega)
      have h3 : (it.value : ℚ) ≤ (it.cost : ℚ) * R := by
        rw [Item.value_eq_cost_mul_ratio (by omega : it.cost ≠ 0)]
        exact mul_le_mul_of_nonneg_left (hr it (by simp)) (by exact_mod_cast hcit.le)
      calc ubLoop01 rest (bv + it.value) (bbl - it.cost)
          ≤ ((bv + it.value : ℤ) : ℚ) + ((bbl - it.cost : ℤ) : ℚ) * R := h2
        _ ≤ (bv : ℚ) + (bbl : ℚ) * R := by push_cast; nlinarith

/-- Lipschitz lemma: on a descending-ratio sorted list with positive costs
and non-negative values, lowering the budget by `δ ≥ 0` lowers the 0/1
bound by at most `δ * R`, for any `R ≥ 0` dominating all ratios. -/
theorem ubLoop01_lipschitz (items : List Item) (bv bbl δ : ℤ) (R : ℚ)
    (hsort : SortedByRatio items)
    (hc : ∀ it ∈ items, 0 < it.cost) (hv : ∀ it ∈ items, 0 ≤ it.value)
    (hr : ∀ it ∈ items, it.getRatio ≤ R) (hR : 0 ≤ R)
    (hδ : 0 ≤ δ) (hlow : 0 ≤ bbl - δ) :
    ubLoop01 items bv bbl ≤ ubLoop01 items bv (bbl - δ) + (δ : ℚ) * R := by
  induction items generalizing bv bbl δ with
  | nil =>
    simp only [ubLoop01]
    have : 0 ≤ (δ : ℚ) * R := mul_nonneg (by exact_mod_cast hδ) hR
    linarith
  | cons it rest ih =>
    rw [SortedByRatio, List.sorted_cons] at hsort
    obtain ⟨hhead, htail⟩ := hsort
    have hcit : 0 < it.cost := hc it (by simp)
    have hrit : it.getRatio ≤ R := hr it (by simp)
    have hrit0 : 0 ≤ it.getRatio := Item.getRatio_nonneg (hv it (by simp)) hcit
    by_cases h : bbl ≤ it.cost
    · have h2 : bbl - δ ≤ it.cost := by omega
      simp only [ubLoop01, if_pos h, if_pos h2]
      have : (δ : ℚ) * it.getRatio ≤ (δ : ℚ) * R :=
        mul_le_mul_of_nonneg_left hrit (by exact_mod_cast hδ)
      push_cast
      nlinarith
    · push_neg at h
      by_cases h2 : bbl - δ ≤ it.cost
      · have hrhs : ubLoop01 (it :: rest) bv (bbl - δ)
            = (bv : ℚ) + ((bbl - δ : ℤ) : ℚ) * it.getRatio := by
          simp only [ubLoop01, if_pos h2]
        rw [hrhs]
        have hcap : ubLoop01 (it :: rest) bv bbl ≤ (bv : ℚ) + (bbl : ℚ) * it.getRatio := by
          apply ubLoop01_le_linear _ _ _ _ hc _ hrit0 (by omega)
          intro x hx
          rcases List.mem_cons.mp hx with rfl | hx
          · exact le_refl _
          · exact hhead x hx
        have hsplit : (bbl : ℚ) * it.getRatio
            = ((bbl - δ : ℤ) : ℚ) * it.getRatio + (δ : ℚ) * it.getRatio := by
          push_cast
          ring
        have hratmul : (δ : ℚ) * it.getRatio ≤ (δ : ℚ) * R :=
          mul_le_mul_of_nonneg_left hrit (by exact_mod_cast hδ)
        linarith
      · push_neg at h2
        simp only [ubLoop01, if_neg (by omega : ¬ bbl ≤ it.cost),
          if_neg (by omega : ¬ bbl - δ ≤ it.cost)]
        have := ih (bv + it.value) (bbl - it.cost) δ htail
          (fun x hx => hc x (by simp [hx])) (fun x hx => hv x (by simp [hx]))
          (fun x hx => hr x (by simp [hx])) hδ (by omega)
        rw [show bbl - δ - it.cost = bbl - it.cost - δ by ring]
        exact this

/-- Domination lemma: on a descending-ratio sorted list with positive
costs and non-negative values, the 0/1 bound loop dominates
`bv + listValue T` for every feasible sub-selection `T`. -/
theorem ubLoop01_dominates (items : List Item) (bv bbl : ℤ) (T : List Item)
    (hsort : SortedByRatio items)
    (hc : ∀ it ∈ items, 0 < it.cost) (hv : ∀ it ∈ items, 0 ≤ it.value)
    (hbl : 0 ≤ bbl) (hT : T.Sublist items) (hTc : listCost T ≤ bbl) :
    (bv : ℚ) + (listValue T : ℚ) ≤ ubLoop01 items bv bbl := by
  induction items generalizing bv bbl T with
  | nil =>
    rw [List.sublist_nil.mp hT]
    simp [ubLoop01, listValue]
  | cons it rest ih =>
    rw [SortedByRatio, List.sorted_cons] at hsort
    obtain ⟨hhead, htail⟩ := hsort
    have hcit : 0 < it.cost := hc it (by simp)
    have hrit0 : 0 ≤ it.getRatio := Item.getRatio_nonneg (hv it (by simp)) hcit
    by_cases h : bbl ≤ it.cost
    · simp only [ubLoop01, if_pos h]
      have hTv : (listValue T : ℚ) ≤ it.getRatio * (listCost T : ℚ) := by
        apply listValue_le_ratio_mul_cost
        · intro x hx
          exact hc x (hT.subset hx)
        · intro x hx
          rcases List.mem_cons.mp (hT.subset hx) with rfl | hx2
          · exact le_refl _
          · exact hhead x hx2
      have hTc2 : it.getRatio * (listCost T : ℚ) ≤ it.getRatio * (bbl : ℚ) :=
        mul_le_mul_of_nonneg_left (by exact_mod_cast hTc) hrit0
      have : (bbl : ℚ) * it.getRatio = it.getRatio * (bbl : ℚ) := by ring
      linarith
    · push_neg at h
      have hbranch : ubLoop01 (it :: rest) bv bbl
          = ubLoop01 rest (bv + it.value) (bbl - it.cost) := by
        simp only [ubLoop01, if_neg (by omega : ¬ bbl ≤ it.cost)]
      rw [hbranch]
      cases hT with
      | cons a hT2 =>
        -- the selection does not use the head item
        have hmain := ih bv bbl T htail
          (fun x hx => hc x (by simp [hx])) (fun x hx => hv x (by simp [hx]))
          hbl hT2 hTc
        have hlip : ubLoop01 rest bv bbl
            ≤ ubLoop01 rest bv (bbl - it.cost) + (it.cost : ℚ) * it.getRatio := by
          apply ubLoop01_lipschitz rest bv bbl it.cost it.getRatio htail
            (fun x hx => hc x (by simp [hx])) (fun x hx => hv x (by simp [hx]))
            (fun x hx => hhead x hx) hrit0 (by omega) (by omega)
        have hval : (it.cost : ℚ) * it.getRatio = (it.value : ℚ) :=
          (Item.value_eq_cost_mul_ratio (by omega : it.cost ≠ 0)).symm
        have hshift : ubLoop01 rest (bv + it.value) (bbl - it.cost)
            = ubLoop01 rest bv (bbl - it.cost) + (it.value : ℚ) :=
          ubLoop01_add_left rest bv it.value (bbl - it.cost)
        rw [hshift]
        linarith
      | cons₂ a hT2 =>
        -- the selection takes the head item
        rename_i T2
        have hTcost : listCost T2 ≤ bbl - it.cost := by
          rw [listCost_cons] at hTc
          omega
        have hmain := ih (bv + it.value) (bbl - it.cost) T2 htail
          (fun x hx => hc x (by simp [hx])) (fun x hx => hv x (by simp [hx]))
          (by omega) hT2 hTcost
        rw [listValue_cons]
        push_cast at hmain ⊢
        linarith


/-- C4, amended: in the 0/1 variant, for every working list sorted by
non-increasing ratio whose items all have non-negative value and strictly
positive cost, every depth, every accumulated value and every non-negative
remaining budget, `computeUpperBound` is at least the accumulated value
plus the value of any feasible integral completion using positions at and
after the depth (the bound is admissible there).  The zero-cost case and
the unbounded variant are excluded: both are refuted by the recorded
counterexample. -/
theorem c4_amended_upper_bound_admissible_01 (items : List Item) (depth : ℕ)
    (hsort : SortedByRatio items)
    (hc : ∀ it ∈ items, 0 < it.cost) (hv : ∀ it ∈ items, 0 ≤ it.value)
    (bound_value bound_budget_left : ℤ) (hbl : 0 ≤ bound_budget_left)
    (T : List Item) (hT : T.Sublist (items.drop depth))
    (hTc : listCost T ≤ bound_budget_left) :
    (bound_value : ℚ) + (listValue T : ℚ) ≤
      computeUpperBound items depth bound_value bound_budget_left := by
  rw [computeUpperBound]
  apply ubLoop01_dominates (items.drop depth) bound_value bound_budget_left T
  · exact List.Pairwise.sublist (List.drop_sublist depth items) hsort
  · intro x hx
    exact hc x (List.mem_of_mem_drop hx)
  · intro x hx
    exact hv x (List.mem_of_mem_drop hx)
  · exact hbl
  · exact hT
  · exact hTc

/-- Witness for the amended C4 theorem: the spec's concrete 0/1 scenario
(60,10), (100,20), (120,30) — already ratio-sorted — at depth 0, value 0
and budget 50, against the optimal completion of items 2 and 3. -/
theorem c4_amended_upper_bound_admissible_01_witness :
    SortedByRatio [⟨60, 10⟩, ⟨100, 20⟩, ⟨120, 30⟩] ∧
    [Item.mk 100 20, Item.mk 120 30].Sublist
      (([⟨60, 10⟩, ⟨100, 20⟩, ⟨120, 30⟩] : List Item).drop 0) ∧
    listCost [⟨100, 20⟩, ⟨120, 30⟩] ≤ 50 ∧
    ((0 : ℤ) : ℚ) + (listValue [⟨100, 20⟩, ⟨120, 30⟩] : ℚ) ≤
      computeUpperBound [⟨60, 10⟩, ⟨100, 20⟩, ⟨120, 30⟩] 0 0 50 := by
  have hsort : SortedByRatio [⟨60, 10⟩, ⟨100, 20⟩, ⟨120, 30⟩] := by
    norm_num [SortedByRatio, List.Sorted, Item.getRatio]
  have hsub : [Item.mk 100 20, Item.mk 120 30].Sublist
      (([⟨60, 10⟩, ⟨100, 20⟩, ⟨120, 30⟩] : List Item).drop 0) := by
    simp
  have hcost : listCost [Item.mk 100 20, Item.mk 120 30] ≤ 50 := by
    norm_num [listCost]
  exact ⟨hsort, hsub, hcost,
    c4_amended_upper_bound_admissible_01 [⟨60, 10⟩, ⟨100, 20⟩, ⟨120, 30⟩] 0 hsort
      (by norm_num) (by norm_num) 0 50 (by norm_num)
      [⟨100, 20⟩, ⟨120, 30⟩] hsub hcost⟩

end Knapstack
namespace Knapstack

/-- Every pair surviving preprocessing satisfies the filter predicate and
records its original index faithfully: the item cost is within budget, the
index is in range, and the index looks up the item in the instance. -/
theorem sortedPairs_mem (inst : Instance) (pr : Item × ℕ)
    (hpr : pr ∈ sortedPairs inst) :
    pr.1.cost ≤ inst.budget ∧ pr.2 < inst.items.length ∧
      inst.items.getD pr.2 ⟨0, 0⟩ = pr.1 := by
  rw [sortedPairs] at hpr
  have h1 := (List.perm_insertionSort ratioGE _).mem_iff.mp hpr
  rw [List.mem_filter] at h1
  obtain ⟨hz, hcost⟩ := h1
  rw [List.mem_iff_getElem] at hz
  obtain ⟨i, hi, hig⟩ := hz
  have hilen : i < inst.items.length := by
    simpa using (List.lt_length_left_of_zip hi)
  rw [List.getElem_zip, List.getElem_range] at hig
  subst hig
  refine ⟨by simpa using hcost, hilen, ?_⟩
  rw [List.getD_eq_getElem?_getD, List.getElem?_eq_getElem hilen]
  rfl

/-- Original indices recorded by preprocessing are pairwise distinct. -/
theorem sortedPairs_snd_nodup (inst : Instance) :
    ((sortedPairs inst).map Prod.snd).Nodup := by
  have hperm := (List.perm_insertionSort ratioGE
    ((inst.items.zip (List.range inst.items.length)).filter
      (fun p => decide (p.1.cost ≤ inst.budget)))).map Prod.snd
  rw [sortedPairs]
  apply hperm.nodup_iff.mpr
  apply List.Sublist.nodup (List.Sublist.map Prod.snd (List.filter_sublist _))
  rw [List.map_snd_zip _ _ (by simp)]
  exact List.nodup_range _

/-- Result assembly of the 0/1 `solve` never touches an original index that
is absent from `permuted_id`. -/
theorem foldl_set_true_preserve (perm : List ℕ) (i : ℕ) (hi : i ∉ perm) :
    ∀ (stack : List ℕ) (t0 t1 : List Bool),
      List.foldlM (fun taken d => (perm[d]?).map (fun j => taken.set j true))
        t0 stack = some t1 →
      t1.getD i false = t0.getD i false := by
  intro stack
  induction stack with
  | nil =>
    intro t0 t1 h
    simp only [List.foldlM_nil] at h
    cases h
    rfl
  | cons d rest ih =>
    intro t0 t1 h
    rw [List.foldlM_cons] at h
    cases hj : perm[d]? with
    | none => rw [hj] at h; simp at h
    | some j =>
      rw [hj] at h
      simp only [Option.map_some', Option.bind_some] at h
      have hji : j ≠ i := by
        intro hrfl
        exact hi (hrfl ▸ List.getElem?_mem hj)
      have := ih (t0.set j true) t1 h
      rw [this, List.getD_eq_getElem?_getD, List.getD_eq_getElem?_getD,
        List.getElem?_set_ne hji]

/-- Result assembly of the unbounded `solve` never touches an original
index that is absent from `permuted_id`. -/
theorem foldl_set_count_preserve (perm : List ℕ) (i : ℕ) (hi : i ∉ perm) :
    ∀ (stack : List (ℕ × ℤ)) (t0 t1 : List ℤ),
      List.foldlM (fun counts pr => (perm[pr.1]?).map (fun j => counts.set j pr.2))
        t0 stack = some t1 →
      t1.getD i 0 = t0.getD i 0 := by
  intro stack
  induction stack with
  | nil =>
    intro t0 t1 h
    simp only [List.foldlM_nil] at h
    cases h
    rfl
  | cons pr rest ih =>
    intro t0 t1 h
    rw [List.foldlM_cons] at h
    cases hj : perm[pr.1]? with
    | none => rw [hj] at h; simp at h
    | some j =>
      rw [hj] at h
      simp only [Option.map_some', Option.bind_some] at h
      have hji : j ≠ i := by
        intro hrfl
        exact hi (hrfl ▸ List.getElem?_mem hj)
      have := ih (t0.set j pr.2) t1 h
      rw [this, List.getD_eq_getElem?_getD, List.getD_eq_getElem?_getD,
        List.getElem?_set_ne hji]

/-- Original index with over-budget cost is never a recorded index. -/
theorem over_budget_not_recorded (inst : Instance) (i : ℕ)
    (hcost : (inst.items.getD i ⟨0, 0⟩).cost > inst.budget) :
    i ∉ (sortedPairs inst).map Prod.snd := by
  intro hmem
  rw [List.mem_map] at hmem
  obtain ⟨pr, hpr, hpr2⟩ := hmem
  obtain ⟨hc, _, hlook⟩ := sortedPairs_mem inst pr hpr
  rw [← hpr2] at hcost
  rw [hlook] at hcost
  omega

/-- C6: in both variants, an original item whose cost exceeds the budget is
removed by the preprocessor and never receives a positive decision: the
returned solution has decision false (0/1) respectively count 0
(unbounded) at that index. -/
theorem c6_exclusion :
    (∀ (inst : Instance) (i : ℕ) (sol : List Bool), i < inst.items.length →
      (inst.items.getD i ⟨0, 0⟩).cost > inst.budget →
      solve01 inst = some sol → sol.getD i false = false) ∧
    (∀ (inst : Instance) (i : ℕ) (sol : List ℤ), i < inst.items.length →
      (inst.items.getD i ⟨0, 0⟩).cost > inst.budget →
      solveU inst = some sol → sol.getD i 0 = 0) := by
  constructor
  · intro inst i sol hi hcost hsol
    simp only [solve01] at hsol
    cases hb : iterative_bnb01 ((sortedPairs inst).map Prod.fst) inst.budget with
    | none => rw [hb] at hsol; simp at hsol
    | some bs =>
      rw [hb] at hsol
      have hpres := foldl_set_true_preserve ((sortedPairs inst).map Prod.snd) i
        (over_budget_not_recorded inst i hcost) bs _ sol hsol
      rw [hpres, List.getD_eq_getElem?_getD, List.getElem?_replicate, if_pos hi]
      rfl
  · intro inst i sol hi hcost hsol
    simp only [solveU] at hsol
    cases hb : iterative_bnbU ((sortedPairs inst).map Prod.fst) inst.budget with
    | none => rw [hb] at hsol; simp at hsol
    | some bs =>
      rw [hb] at hsol
      have hpres := foldl_set_count_preserve ((sortedPairs inst).map Prod.snd) i
        (over_budget_not_recorded inst i hcost) bs _ sol hsol
      rw [hpres, List.getD_eq_getElem?_getD, List.getElem?_replicate, if_pos hi]
      rfl

/-- Instance of the spec's infeasible-alone filtering scenario: budget 5,
items (10,5) and (1000,999). -/
def instC6 : Instance := ⟨5, [⟨10, 5⟩, ⟨1000, 999⟩]⟩

/-- Witness for C6 at the spec's filtering scenario: item 1 costs 999 > 5
and is taken in neither variant (0/1 solution [true, false], unbounded
solution [1, 0]). -/
theorem c6_exclusion_witness :
    (1 < instC6.items.length ∧ (instC6.items.getD 1 ⟨0, 0⟩).cost > instC6.budget ∧
      ([true, false] : List Bool).getD 1 false = false) ∧
    (1 < instC6.items.length ∧ (instC6.items.getD 1 ⟨0, 0⟩).cost > instC6.budget ∧
      ([1, 0] : List ℤ).getD 1 0 = 0) := by
  have h1 : (1 : ℕ) < instC6.items.length := by norm_num [instC6]
  have h2 : (instC6.items.getD 1 ⟨0, 0⟩).cost > instC6.budget := by norm_num [instC6]
  have hs1 : solve01 instC6 = some [true, false] := by
    norm_num [instC6, solve01, sortedPairs, iterative_bnb01, explore01, ubLoop01,
      List.insertionSort, List.orderedInsert, List.filter, List.zip, List.zipWith,
      List.range, ratioGE, Item.getRatio, dblMax, List.replicate, List.set]
  have hs2 : solveU instC6 = some [1, 0] := by
    norm_num [instC6, solveU, sortedPairs, iterative_bnbU, exploreU, countLoopU,
      ubLoopU, List.insertionSort, List.orderedInsert, List.filter, List.zip,
      List.zipWith, List.range, ratioGE, Item.getRatio, dblMax, Int.tdiv,
      List.replicate, List.set]
  exact ⟨⟨h1, h2, c6_exclusion.1 instC6 1 [true, false] h1 h2 hs1⟩,
    ⟨h1, h2, c6_exclusion.2 instC6 1 [1, 0] h1 h2 hs2⟩⟩

end Knapstack
namespace Knapstack

/-- Total cost of the items committed on a 0/1 decision stack, read off the
sorted working list. -/
def stackCost01 (S : List Item) (stack : List ℕ) : ℤ :=
  (stack.map (fun d => (S.getD d ⟨0, 0⟩).cost)).sum

/-- Total cost of the copies committed on an unbounded decision stack. -/
def stackCostU (S : List Item) (stack : List (ℕ × ℤ)) : ℤ :=
  (stack.map (fun pr => pr.2 * (S.getD pr.1 ⟨0, 0⟩).cost)).sum

/-- Incumbent invariant of the 0/1 search: the recorded stack spends at
most the budget, its positions are in range and pairwise distinct. -/
def GoodBest01 (S : List Item) (B : ℤ) (best : Best01) : Prop :=
  stackCost01 S best.bestStack ≤ B ∧ (∀ d ∈ best.bestStack, d < S.length) ∧
    best.bestStack.Nodup

/-- Incumbent invariant of the unbounded search. -/
def GoodBestU (S : List Item) (B : ℤ) (best : BestU) : Prop :=
  stackCostU S best.bestStack ≤ B ∧ (∀ pr ∈ best.bestStack, pr.1 < S.length) ∧
    (best.bestStack.map Prod.fst).Nodup

/-- Cons unfolding for `stackCost01`. -/
theorem stackCost01_cons (S : List Item) (d : ℕ) (stack : List ℕ) :
    stackCost01 S (d :: stack) = (S.getD d ⟨0, 0⟩).cost + stackCost01 S stack := by
  simp [stackCost01]

/-- Cons unfolding for `stackCostU`. -/
theorem stackCostU_cons (S : List Item) (pr : ℕ × ℤ) (stack : List (ℕ × ℤ)) :
    stackCostU S (pr :: stack)
      = pr.2 * (S.getD pr.1 ⟨0, 0⟩).cost + stackCostU S stack := by
  simp [stackCostU]

/-- Head and tail of a suffix of `S`: the head is the entry of `S` at the
suffix start and the tail is the next suffix. -/
theorem drop_eq_cons_facts (S : List Item) (depth : ℕ) (it : Item)
    (rest : List Item) (h : it :: rest = S.drop depth) :
    S.getD depth ⟨0, 0⟩ = it ∧ rest = S.drop (depth + 1) ∧ depth < S.length := by
  have h0 : S[depth]? = some it := by
    have h1 := List.getElem?_drop S depth 0
    rw [← h] at h1
    simpa using h1.symm
  have hlen : depth < S.length := by
    by_contra hge
    rw [List.getElem?_eq_none (by omega)] at h0
    cases h0
  refine ⟨?_, ?_, hlen⟩
  · rw [List.getD_eq_getElem?_getD, h0]
    rfl
  · have h2 : S.drop (depth + 1) = (S.drop depth).drop 1 := by
      rw [List.drop_drop]
    rw [h2, ← h]
    rfl

/-- Feasibility invariant of the 0/1 search loop: starting from a partial
state whose remaining budget is the budget minus the committed cost and is
non-negative, with in-range, strictly bounded, duplicate-free stack
positions, `explore01` turns a good incumbent into a good incumbent. -/
theorem explore01_preserves_good (S : List Item) (B : ℤ) (suffix : List Item) :
    ∀ (depth : ℕ) (value bl : ℤ) (stack : List ℕ) (best : Best01),
      suffix = S.drop depth →
      bl = B - stackCost01 S stack → 0 ≤ bl →
      (∀ d ∈ stack, d < depth) → stack.Nodup →
      (∀ d ∈ stack, d < S.length) →
      GoodBest01 S B best →
      GoodBest01 S B (explore01 suffix depth value bl stack best) := by
  induction suffix with
  | nil =>
    intro depth value bl stack best hsuf hbl hbl0 hlt hnd hltS hgood
    simp only [explore01]
    by_cases hup : value ≤ best.bestValue
    · rw [if_pos hup]
      exact hgood
    · rw [if_neg hup]
      exact ⟨by simp only []; omega, hltS, hnd⟩
  | cons it rest ih =>
    intro depth value bl stack best hsuf hbl hbl0 hlt hnd hltS hgood
    obtain ⟨hit, hrest, hdlen⟩ := drop_eq_cons_facts S depth it rest hsuf
    simp only [explore01]
    by_cases hskip : bl < it.cost
    · rw [if_pos hskip]
      exact ih (depth + 1) value bl stack best hrest hbl hbl0
        (fun d hd => by have := hlt d hd; omega) hnd hltS hgood
    · rw [if_neg hskip]
      by_cases hprune : ubLoop01 (it :: rest) value bl ≤ (best.bestValue : ℚ)
      · rw [if_pos hprune]
        exact hgood
      · rw [if_neg hprune]
        have hdepthfresh : depth ∉ stack := fun hmem => by
          have := hlt depth hmem
          omega
        have hinner : GoodBest01 S B
            (explore01 rest (depth + 1) (value + it.value) (bl - it.cost)
              (depth :: stack) best) := by
          apply ih (depth + 1) (value + it.value) (bl - it.cost)
            (depth :: stack) best hrest
          · rw [stackCost01_cons, hit]
            omega
          · omega
          · intro d hd
            rcases List.mem_cons.mp hd with rfl | hd2
            · omega
            · have := hlt d hd2
              omega
          · exact List.nodup_cons.mpr ⟨hdepthfresh, hnd⟩
          · intro d hd
            rcases List.mem_cons.mp hd with rfl | hd2
            · exact hdlen
            · exact hltS d hd2
          · exact hgood
        exact ih (depth + 1) value bl stack _ hrest hbl hbl0
          (fun d hd => by have := hlt d hd; omega) hnd hltS hinner

/-- Feasibility of the raw 0/1 search: when every working-list item fits in
the budget (the filter guarantee) and the budget is non-negative, the
returned stack spends at most the budget, with in-range duplicate-free
positions. -/
theorem iterative_bnb01_good (S : List Item) (B : ℤ) (hB : 0 ≤ B)
    (hc : ∀ it ∈ S, it.cost ≤ B) (stack : List ℕ)
    (h : iterative_bnb01 S B = some stack) :
    stackCost01 S stack ≤ B ∧ (∀ d ∈ stack, d < S.length) ∧ stack.Nodup := by
  cases S with
  | nil => simp [iterative_bnb01] at h
  | cons it0 rest =>
    simp only [iterative_bnb01, Option.some.injEq] at h
    subst h
    have hgood0 : GoodBest01 (it0 :: rest) B ⟨0, []⟩ := by
      refine ⟨?_, by simp, by simp⟩
      simp [stackCost01]
      exact hB
    have hfirst : GoodBest01 (it0 :: rest) B
        (explore01 rest 1 it0.value (B - it0.cost) [0] ⟨0, []⟩) := by
      apply explore01_preserves_good (it0 :: rest) B rest 1 it0.value
        (B - it0.cost) [0] ⟨0, []⟩ rfl
      · simp [stackCost01]
      · have := hc it0 (by simp)
        omega
      · intro d hd
        simp only [List.mem_singleton] at hd
        omega
      · simp
      · intro d hd
        simp only [List.mem_singleton] at hd
        simp [hd]
      · exact hgood0
    have hsecond := explore01_preserves_good (it0 :: rest) B rest 1 0 B [] _
      rfl (by simp [stackCost01]) hB (by simp) (by simp) (by simp) hfirst
    exact hsecond

end Knapstack
namespace Knapstack

/-- Budget left after any number of copies up to `floor(bl / c)` of an item
of nonzero cost is still non-negative. -/
theorem budget_after_copies_nonneg (bl c : ℤ) (hbl : 0 ≤ bl) (hc : c ≠ 0) :
    ∀ j : ℕ, j ≤ (Int.tdiv bl c).toNat → 0 ≤ bl - (j : ℤ) * c := by
  intro j hj
  rcases lt_or_gt_of_ne hc with hneg | hpos
  · have htd : Int.tdiv bl c ≤ 0 := by
      have h1 : Int.tdiv bl (-(-c)) = -(Int.tdiv bl (-c)) := Int.tdiv_neg bl (-c)
      rw [neg_neg] at h1
      have h2 : 0 ≤ Int.tdiv bl (-c) := Int.tdiv_nonneg hbl (by omega)
      omega
    have : j = 0 := by omega
    subst this
    simpa using hbl
  · have heq : Int.tdiv bl c = bl / c := Int.tdiv_eq_ediv hbl (by omega)
    have hjle : (j : ℤ) ≤ bl / c := by
      have h1 : ((Int.tdiv bl c).toNat : ℤ) = bl / c := by
        rw [← heq]
        exact Int.toNat_of_nonneg (Int.tdiv_nonneg hbl (by omega))
      have h2 : (j : ℤ) ≤ ((Int.tdiv bl c).toNat : ℤ) := by exact_mod_cast hj
      omega
    have hmod : 0 ≤ bl - bl / c * c := by
      have := Int.emod_nonneg bl (by omega : c ≠ 0)
      have hdm : bl % c = bl - bl / c * c := by
        rw [Int.emod_def]
        ring
      omega
    have : (j : ℤ) * c ≤ bl / c * c := by
      apply mul_le_mul_of_nonneg_right hjle
      omega
    omega

/-- Feasibility invariant of the count-backtracking loop: if the
continuation `f` (the scan from `depth + 1`) preserves good incumbents
from every consistent partial state, then so does `countLoopU`, whose
`j`-th iteration commits `j` copies of the item sitting at `depth`. -/
theorem countLoopU_preserves_good (S : List Item) (B : ℤ) (it : Item)
    (depth : ℕ) (value bl : ℤ) (stack : List (ℕ × ℤ))
    (hit : S.getD depth ⟨0, 0⟩ = it) (hdlen : depth < S.length)
    (hbl : bl = B - stackCostU S stack)
    (hlt : ∀ pr ∈ stack, pr.1 < depth) (hnd : (stack.map Prod.fst).Nodup)
    (hltS : ∀ pr ∈ stack, pr.1 < S.length)
    (f : ℤ → ℤ → List (ℕ × ℤ) → BestU → Option BestU)
    (hf : ∀ (v b : ℤ) (s : List (ℕ × ℤ)) (bst bst' : BestU),
      b = B - stackCostU S s → 0 ≤ b → (∀ pr ∈ s, pr.1 < depth + 1) →
      (s.map Prod.fst).Nodup → (∀ pr ∈ s, pr.1 < S.length) →
      GoodBestU S B bst → f v b s bst = some bst' → GoodBestU S B bst') :
    ∀ (m : ℕ), (∀ j : ℕ, j ≤ m → 0 ≤ bl - (j : ℤ) * it.cost) →
      ∀ (bst best' : BestU), GoodBestU S B bst →
        countLoopU f it depth value bl stack m bst = some best' →
        GoodBestU S B best' := by
  intro m
  induction m with
  | zero =>
    intro hj bst best' hgood hrun
    simp only [countLoopU] at hrun
    exact hf value bl stack bst best' hbl (by simpa using hj 0 (le_refl 0))
      (fun pr hpr => by have := hlt pr hpr; omega) hnd hltS hgood hrun
  | succ m ihm =>
    intro hj bst best' hgood hrun
    simp only [countLoopU] at hrun
    cases hcall : f (value + ((m : ℤ) + 1) * it.value)
        (bl - ((m : ℤ) + 1) * it.cost) ((depth, (m : ℤ) + 1) :: stack) bst with
    | none => rw [hcall] at hrun; cases hrun
    | some b1 =>
      rw [hcall] at hrun
      have hdepthfresh : depth ∉ stack.map Prod.fst := fun hmem => by
        rw [List.mem_map] at hmem
        obtain ⟨pr, hpr, hpr1⟩ := hmem
        have := hlt pr hpr
        omega
      have hb1 : GoodBestU S B b1 := by
        apply hf (value + ((m : ℤ) + 1) * it.value) (bl - ((m : ℤ) + 1) * it.cost)
          ((depth, (m : ℤ) + 1) :: stack) bst b1
        · rw [stackCostU_cons]
          simp only [hit]
          omega
        · have := hj (m + 1) (le_refl _)
          push_cast at this ⊢
          omega
        · intro pr hpr
          rcases List.mem_cons.mp hpr with rfl | hpr2
          · omega
          · have := hlt pr hpr2
            omega
        · simp only [List.map_cons]
          exact List.nodup_cons.mpr ⟨hdepthfresh, hnd⟩
        · intro pr hpr
          rcases List.mem_cons.mp hpr with rfl | hpr2
          · exact hdlen
          · exact hltS pr hpr2
        · exact hgood
        · exact hcall
      exact ihm (fun j hjm => hj j (by omega)) b1 best' hb1 hrun

/-- Feasibility invariant of the unbounded search loop, conditional on the
search completing without running into undefined behaviour. -/
theorem exploreU_preserves_good (S : List Item) (B : ℤ) (suffix : List Item) :
    ∀ (depth : ℕ) (value bl : ℤ) (stack : List (ℕ × ℤ)) (best best' : BestU),
      suffix = S.drop depth →
      bl = B - stackCostU S stack → 0 ≤ bl →
      (∀ pr ∈ stack, pr.1 < depth) → (stack.map Prod.fst).Nodup →
      (∀ pr ∈ stack, pr.1 < S.length) →
      GoodBestU S B best →
      exploreU suffix depth value bl stack best = some best' →
      GoodBestU S B best' := by
  induction suffix with
  | nil =>
    intro depth value bl stack best best' hsuf hbl hbl0 hlt hnd hltS hgood hrun
    simp only [exploreU, Option.some.injEq] at hrun
    subst hrun
    by_cases hup : value ≤ best.bestValue
    · rw [if_pos hup]
      exact hgood
    · rw [if_neg hup]
      exact ⟨by simp only []; omega, hltS, hnd⟩
  | cons it rest ih =>
    intro depth value bl stack best best' hsuf hbl hbl0 hlt hnd hltS hgood hrun
    obtain ⟨hit, hrest, hdlen⟩ := drop_eq_cons_facts S depth it rest hsuf
    simp only [exploreU] at hrun
    by_cases hskip : bl < it.cost
    · rw [if_pos hskip] at hrun
      exact ih (depth + 1) value bl stack best best' hrest hbl hbl0
        (fun pr hpr => by have := hlt pr hpr; omega) hnd hltS hgood hrun
    · rw [if_neg hskip] at hrun
      cases hub : ubLoopU (it :: rest) value bl with
      | none => rw [hub] at hrun; cases hrun
      | some ub =>
        rw [hub] at hrun
        simp only [] at hrun
        by_cases hprune : ub ≤ (best.bestValue : ℚ)
        · rw [if_pos hprune] at hrun
          cases hrun
          exact hgood
        · rw [if_neg hprune] at hrun
          by_cases hc0 : it.cost = 0
          · rw [if_pos hc0] at hrun
            cases hrun
          · rw [if_neg hc0] at hrun
            by_cases hnb : Int.tdiv bl it.cost ≤ 0
            · rw [if_pos hnb] at hrun
              cases hrun
            · rw [if_neg hnb] at hrun
              apply countLoopU_preserves_good S B it depth value bl stack hit
                hdlen hbl hlt hnd hltS _ _ ((Int.tdiv bl it.cost).toNat)
                (budget_after_copies_nonneg bl it.cost hbl0 hc0) best best'
                hgood hrun
              intro v b s bst bst' hb hb0 hsl hsn hsS hbst hcall
              exact ih (depth + 1) v b s bst bst' hrest hb hb0 hsl hsn hsS
                hbst hcall

/-- Feasibility of the raw unbounded search, conditional on completion. -/
theorem iterative_bnbU_good (S : List Item) (B : ℤ) (hB : 0 ≤ B)
    (stack : List (ℕ × ℤ)) (h : iterative_bnbU S B = some stack) :
    stackCostU S stack ≤ B ∧ (∀ pr ∈ stack, pr.1 < S.length) ∧
      (stack.map Prod.fst).Nodup := by
  cases S with
  | nil => simp [iterative_bnbU] at h
  | cons it0 rest =>
    simp only [iterative_bnbU] at h
    by_cases hc0 : it0.cost = 0
    · rw [if_pos hc0] at h
      cases h
    · rw [if_neg hc0] at h
      by_cases hnb : Int.tdiv B it0.cost ≤ 0
      · rw [if_pos hnb] at h
        cases h
      · rw [if_neg hnb] at h
        cases hrun : countLoopU (fun v b s bst => exploreU rest 1 v b s bst) it0
            0 0 B [] (Int.tdiv B it0.cost).toNat ⟨0, []⟩ with
        | none => rw [hrun] at h; cases h
        | some best =>
          rw [hrun] at h
          simp only [Option.some.injEq] at h
          subst h
          have hgood : GoodBestU (it0 :: rest) B best := by
            apply countLoopU_preserves_good (it0 :: rest) B it0 0 0 B [] rfl
              (by simp) (by simp [stackCostU]) (by simp) (by simp) (by simp)
              _ _ ((Int.tdiv B it0.cost).toNat)
              (budget_after_copies_nonneg B it0.cost hB hc0) ⟨0, []⟩ best
              ?_ hrun
            · intro v b s bst bst' hb hb0 hsl hsn hsS hbst hcall
              exact exploreU_preserves_good (it0 :: rest) B rest 1 v b s bst
                bst' rfl hb hb0 hsl hsn hsS hbst hcall
            · refine ⟨?_, by simp, by simp⟩
              simp [stackCostU]
              exact hB
          exact hgood

end Knapstack
namespace Knapstack

/-- Reading any position of a constant list yields that constant. -/
theorem getD_replicate_self {α : Type} (n k : ℕ) (a : α) :
    (List.replicate n a).getD k a = a := by
  rw [List.getD_eq_getElem?_getD, List.getElem?_replicate]
  split <;> rfl

/-- Cost of the all-false solution is zero. -/
theorem getCost01_replicate (items : List Item) :
    getCost01 items (List.replicate items.length false) = 0 := by
  induction items with
  | nil => rfl
  | cons it its ih =>
    simp only [List.length_cons, List.replicate_succ, getCost01, if_neg
      (by simp : ¬ False)]
    simpa using ih

/-- Cost of the all-zero unbounded solution is zero. -/
theorem getCostU_replicate (items : List Item) :
    getCostU items (List.replicate items.length (0 : ℤ)) = 0 := by
  induction items with
  | nil => rfl
  | cons it its ih =>
    simp only [List.length_cons, List.replicate_succ, getCostU]
    simpa using ih

/-- Setting a fresh index to taken adds exactly that item's cost. -/
theorem getCost01_set_true (items : List Item) :
    ∀ (t : List Bool) (j : ℕ), t.length = items.length → j < items.length →
      t.getD j false = false →
      getCost01 items (t.set j true)
        = getCost01 items t + (items.getD j ⟨0, 0⟩).cost := by
  induction items with
  | nil =>
    intro t j _ hj _
    simp at hj
  | cons it its ih =>
    intro t j hlen hj hf
    cases t with
    | nil => simp at hlen
    | cons b bs =>
      cases j with
      | zero =>
        have hb : b = false := by simpa using hf
        subst hb
        simp [List.set, getCost01]
        omega
      | succ j =>
        have hlen2 : bs.length = its.length := by simpa using hlen
        have hj2 : j < its.length := by simpa using hj
        have hf2 : bs.getD j false = false := by simpa using hf
        have := ih bs j hlen2 hj2 hf2
        simp only [List.set, getCost01, List.getD_cons_succ]
        omega

/-- Setting a fresh index to a count adds exactly that many item costs. -/
theorem getCostU_set (items : List Item) :
    ∀ (t : List ℤ) (j : ℕ) (k : ℤ), t.length = items.length →
      j < items.length → t.getD j 0 = 0 →
      getCostU items (t.set j k)
        = getCostU items t + k * (items.getD j ⟨0, 0⟩).cost := by
  induction items with
  | nil =>
    intro t j k _ hj _
    simp at hj
  | cons it its ih =>
    intro t j k hlen hj hf
    cases t with
    | nil => simp at hlen
    | cons c cs =>
      cases j with
      | zero =>
        have hc : c = 0 := by simpa using hf
        subst hc
        simp only [List.set, getCostU, List.getD_cons_zero]
        ring
      | succ j =>
        have hlen2 : cs.length = its.length := by simpa using hlen
        have hj2 : j < its.length := by simpa using hj
        have hf2 : cs.getD j 0 = 0 := by simpa using hf
        have := ih cs j k hlen2 hj2 hf2
        simp only [List.set, getCostU, List.getD_cons_succ]
        omega

/-- Distinct positions of a duplicate-free index list read distinct values. -/
theorem nodup_getD_ne (perm : List ℕ) (hnd : perm.Nodup) (d1 d2 : ℕ)
    (h1 : d1 < perm.length) (h2 : d2 < perm.length) (hne : d1 ≠ d2) :
    perm.getD d1 0 ≠ perm.getD d2 0 := by
  rw [List.getD_eq_getElem?_getD, List.getD_eq_getElem?_getD,
    List.getElem?_eq_getElem h1, List.getElem?_eq_getElem h2]
  intro heq
  exact hne ((hnd.getElem_inj_iff).mp (by simpa using heq))

/-- In-bounds lookup of `permuted_id` as an option. -/
theorem getElem?_eq_some_getD (perm : List ℕ) (d : ℕ) (hd : d < perm.length) :
    perm[d]? = some (perm.getD d 0) := by
  rw [List.getElem?_eq_getElem hd, List.getD_eq_getElem?_getD,
    List.getElem?_eq_getElem hd]
  rfl

/-- Cost of the 0/1 result assembly: folding the best stack over
`Solution::add` accumulates exactly the costs of the recorded original
items. -/
theorem foldl_set_true_cost (items : List Item) (perm : List ℕ)
    (hplen : ∀ j ∈ perm, j < items.length) (hpnd : perm.Nodup) :
    ∀ (stack : List ℕ) (t0 t1 : List Bool),
      (∀ d ∈ stack, d < perm.length) → stack.Nodup →
      t0.length = items.length →
      (∀ d ∈ stack, t0.getD (perm.getD d 0) false = false) →
      List.foldlM (fun taken d => (perm[d]?).map (fun j => taken.set j true))
        t0 stack = some t1 →
      getCost01 items t1 = getCost01 items t0 +
        (stack.map (fun d => (items.getD (perm.getD d 0) ⟨0, 0⟩).cost)).sum := by
  intro stack
  induction stack with
  | nil =>
    intro t0 t1 _ _ _ _ h
    simp only [List.foldlM_nil] at h
    cases h
    simp
  | cons d rest ihs =>
    intro t0 t1 hdlt hnd hlen hfresh h
    rw [List.foldlM_cons] at h
    have hd : d < perm.length := hdlt d (by simp)
    rw [getElem?_eq_some_getD perm d hd] at h
    simp only [Option.map_some', Option.bind_some] at h
    have hjmem : perm.getD d 0 ∈ perm := by
      rw [List.getD_eq_getElem?_getD, List.getElem?_eq_getElem hd]
      exact List.getElem_mem hd
    have hjlen : perm.getD d 0 < items.length := hplen _ hjmem
    have hjf : t0.getD (perm.getD d 0) false = false := hfresh d (by simp)
    have hstep := getCost01_set_true items t0 (perm.getD d 0) hlen hjlen hjf
    have hndrest : rest.Nodup := (List.nodup_cons.mp hnd).2
    have hdnotin : d ∉ rest := (List.nodup_cons.mp hnd).1
    have hrec := ihs (t0.set (perm.getD d 0) true) t1
      (fun e he => hdlt e (by simp [he])) hndrest
      (by rw [List.length_set]; exact hlen) ?_ h
    · rw [hrec, hstep]
      simp only [List.map_cons, List.sum_cons]
      ring
    · intro e he
      have hde : d ≠ e := fun hrfl => hdnotin (hrfl ▸ he)
      have hne := nodup_getD_ne perm hpnd d e hd (hdlt e (by simp [he])) hde
      rw [List.getD_eq_getElem?_getD, List.getElem?_set_ne hne,
        ← List.getD_eq_getElem?_getD]
      exact hfresh e (by simp [he])

/-- Cost of the unbounded result assembly. -/
theorem foldl_set_count_cost (items : List Item) (perm : List ℕ)
    (hplen : ∀ j ∈ perm, j < items.length) (hpnd : perm.Nodup) :
    ∀ (stack : List (ℕ × ℤ)) (t0 t1 : List ℤ),
      (∀ pr ∈ stack, pr.1 < perm.length) → (stack.map Prod.fst).Nodup →
      t0.length = items.length →
      (∀ pr ∈ stack, t0.getD (perm.getD pr.1 0) 0 = 0) →
      List.foldlM (fun counts pr => (perm[pr.1]?).map (fun j => counts.set j pr.2))
        t0 stack = some t1 →
      getCostU items t1 = getCostU items t0 +
        (stack.map (fun pr =>
          pr.2 * (items.getD (perm.getD pr.1 0) ⟨0, 0⟩).cost)).sum := by
  intro stack
  induction stack with
  | nil =>
    intro t0 t1 _ _ _ _ h
    simp only [List.foldlM_nil] at h
    cases h
    simp
  | cons pr rest ihs =>
    intro t0 t1 hdlt hnd hlen hfresh h
    rw [List.foldlM_cons] at h
    have hd : pr.1 < perm.length := hdlt pr (by simp)
    rw [getElem?_eq_some_getD perm pr.1 hd] at h
    simp only [Option.map_some', Option.bind_some] at h
    have hjmem : perm.getD pr.1 0 ∈ perm := by
      rw [List.getD_eq_getElem?_getD, List.getElem?_eq_getElem hd]
      exact List.getElem_mem hd
    have hjlen : perm.getD pr.1 0 < items.length := hplen _ hjmem
    have hjf : t0.getD (perm.getD pr.1 0) 0 = 0 := hfresh pr (by simp)
    have hstep := getCostU_set items t0 (perm.getD pr.1 0) pr.2 hlen hjlen hjf
    have hndrest : (rest.map Prod.fst).Nodup := by
      simp only [List.map_cons, List.nodup_cons] at hnd
      exact hnd.2
    have hdnotin : pr.1 ∉ rest.map Prod.fst := by
      simp only [List.map_cons, List.nodup_cons] at hnd
      exact hnd.1
    have hrec := ihs (t0.set (perm.getD pr.1 0) pr.2) t1
      (fun e he => hdlt e (by simp [he])) hndrest
      (by rw [List.length_set]; exact hlen) ?_ h
    · rw [hrec, hstep]
      simp only [List.map_cons, List.sum_cons]
      ring
    · intro e he
      have hde : pr.1 ≠ e.1 := fun hrfl => hdnotin (by
        rw [List.mem_map]
        exact ⟨e, he, hrfl.symm⟩)
      have hne := nodup_getD_ne perm hpnd pr.1 e.1 hd (hdlt e (by simp [he])) hde
      rw [List.getD_eq_getElem?_getD, List.getElem?_set_ne hne,
        ← List.getD_eq_getElem?_getD]
      exact hfresh e (by simp [he])

/-- Every item of the sorted working list fits in the budget. -/
theorem sortedPairs_fst_cost (inst : Instance) :
    ∀ it ∈ (sortedPairs inst).map Prod.fst, it.cost ≤ inst.budget := by
  intro it hmem
  rw [List.mem_map] at hmem
  obtain ⟨pr, hpr, hpr1⟩ := hmem
  have := (sortedPairs_mem inst pr hpr).1
  rw [hpr1] at this
  exact this

/-- Every recorded original index is in range. -/
theorem sortedPairs_snd_lt (inst : Instance) :
    ∀ j ∈ (sortedPairs inst).map Prod.snd, j < inst.items.length := by
  intro j hmem
  rw [List.mem_map] at hmem
  obtain ⟨pr, hpr, hpr2⟩ := hmem
  have := (sortedPairs_mem inst pr hpr).2.1
  rw [hpr2] at this
  exact this

/-- Translating a working-list position through `permuted_id` and looking
the result up in the instance recovers the working-list item. -/
theorem sortedPairs_lookup (inst : Instance) (d : ℕ)
    (hd : d < (sortedPairs inst).length) :
    inst.items.getD (((sortedPairs inst).map Prod.snd).getD d 0) ⟨0, 0⟩
      = ((sortedPairs inst).map Prod.fst).getD d ⟨0, 0⟩ := by
  have hdf : d < ((sortedPairs inst).map Prod.fst).length := by simpa using hd
  have hds : d < ((sortedPairs inst).map Prod.snd).length := by simpa using hd
  have hmem : (sortedPairs inst)[d] ∈ sortedPairs inst := List.getElem_mem hd
  obtain ⟨_, _, hlook⟩ := sortedPairs_mem inst _ hmem
  have h1 : ((sortedPairs inst).map Prod.snd).getD d 0 = (sortedPairs inst)[d].2 := by
    rw [List.getD_eq_getElem?_getD, List.getElem?_eq_getElem hds]
    simp
  have h2 : ((sortedPairs inst).map Prod.fst).getD d ⟨0, 0⟩
      = (sortedPairs inst)[d].1 := by
    rw [List.getD_eq_getElem?_getD, List.getElem?_eq_getElem hdf]
    simp
  rw [h1, h2, hlook]

/-- C2: whenever `solve` returns a Solution — in either variant, on any
instance with non-negative budget — that Solution is feasible: its total
cost does not exceed the budget.  (No sign condition on item values or
costs is needed; the inputs on which the search runs into undefined
behaviour are exactly those on which no Solution is returned.) -/
theorem c2_solve_feasible :
    (∀ (inst : Instance) (sol : List Bool), 0 ≤ inst.budget →
      solve01 inst = some sol → getCost01 inst.items sol ≤ inst.budget) ∧
    (∀ (inst : Instance) (sol : List ℤ), 0 ≤ inst.budget →
      solveU inst = some sol → getCostU inst.items sol ≤ inst.budget) := by
  constructor
  · intro inst sol hB hsol
    simp only [solve01] at hsol
    cases hb : iterative_bnb01 ((sortedPairs inst).map Prod.fst) inst.budget with
    | none => rw [hb] at hsol; simp at hsol
    | some bs =>
      rw [hb] at hsol
      obtain ⟨hcost, hrange, hnd⟩ :=
        iterative_bnb01_good _ _ hB (sortedPairs_fst_cost inst) bs hb
      have hassem := foldl_set_true_cost inst.items
        ((sortedPairs inst).map Prod.snd) (sortedPairs_snd_lt inst)
        (sortedPairs_snd_nodup inst) bs _ sol
        (fun d hd => by have := hrange d hd; simpa using this)
        hnd (by simp)
        (fun d hd => getD_replicate_self _ _ _) hsol
      rw [hassem, getCost01_replicate]
      have hmapeq : bs.map (fun d =>
            (inst.items.getD (((sortedPairs inst).map Prod.snd).getD d 0)
              ⟨0, 0⟩).cost)
          = bs.map (fun d =>
            ((((sortedPairs inst).map Prod.fst).getD d ⟨0, 0⟩)).cost) := by
        apply List.map_congr_left
        intro d hd
        rw [sortedPairs_lookup inst d (by have := hrange d hd; simpa using this)]
      rw [hmapeq]
      simpa [stackCost01] using hcost
  · intro inst sol hB hsol
    simp only [solveU] at hsol
    cases hb : iterative_bnbU ((sortedPairs inst).map Prod.fst) inst.budget with
    | none => rw [hb] at hsol; simp at hsol
    | some bs =>
      rw [hb] at hsol
      obtain ⟨hcost, hrange, hnd⟩ := iterative_bnbU_good _ _ hB bs hb
      have hassem := foldl_set_count_cost inst.items
        ((sortedPairs inst).map Prod.snd) (sortedPairs_snd_lt inst)
        (sortedPairs_snd_nodup inst) bs _ sol
        (fun pr hpr => by have := hrange pr hpr; simpa using this)
        hnd (by simp)
        (fun pr hpr => getD_replicate_self _ _ _) hsol
      rw [hassem, getCostU_replicate]
      have hmapeq : bs.map (fun pr => pr.2 *
            (inst.items.getD (((sortedPairs inst).map Prod.snd).getD pr.1 0)
              ⟨0, 0⟩).cost)
          = bs.map (fun pr => pr.2 *
            ((((sortedPairs inst).map Prod.fst).getD pr.1 ⟨0, 0⟩)).cost) := by
        apply List.map_congr_left
        intro pr hpr
        rw [sortedPairs_lookup inst pr.1
          (by have := hrange pr hpr; simpa using this)]
      rw [hmapeq]
      simpa [stackCostU] using hcost

/-- Witness for C2 at the spec's two concrete scenarios: the 0/1 instance
(60,10), (100,20), (120,30) with budget 50 (solution [false, true, true],
cost 50) and the unbounded instance (60,10) with budget 35 (solution
three copies, cost 30). -/
theorem c2_solve_feasible_witness :
    ((0 : ℤ) ≤ 50 ∧
      getCost01 [⟨60, 10⟩, ⟨100, 20⟩, ⟨120, 30⟩] [false, true, true] ≤ 50) ∧
    ((0 : ℤ) ≤ 35 ∧ getCostU [⟨60, 10⟩] [3] ≤ 35) := by
  have hs1 : solve01 ⟨50, [⟨60, 10⟩, ⟨100, 20⟩, ⟨120, 30⟩]⟩
      = some [false, true, true] := by
    norm_num [solve01, sortedPairs, iterative_bnb01, explore01, ubLoop01,
      List.insertionSort, List.orderedInsert, List.filter, List.zip,
      List.zipWith, List.range, ratioGE, Item.getRatio, dblMax,
      List.replicate, List.set]
  have hs2 : solveU ⟨35, [⟨60, 10⟩]⟩ = some [3] := by
    norm_num [solveU, sortedPairs, iterative_bnbU, exploreU, countLoopU,
      ubLoopU, List.insertionSort, List.orderedInsert, List.filter, List.zip,
      List.zipWith, List.range, ratioGE, Item.getRatio, dblMax, Int.tdiv,
      List.replicate, List.set]
  exact ⟨⟨by norm_num,
      c2_solve_feasible.1 ⟨50, [⟨60, 10⟩, ⟨100, 20⟩, ⟨120, 30⟩]⟩
        [false, true, true] (by norm_num) hs1⟩,
    ⟨by norm_num,
      c2_solve_feasible.2 ⟨35, [⟨60, 10⟩]⟩ [3] (by norm_num) hs2⟩⟩

end Knapstack
